import Mathlib

/-!
# Verification of `difftool` (version-aware manifest diff tool)

Shallow embedding of the core of the `difftool` repository:

* `pkg/util/version.go` — `Version`, `Less`, `ParseVersion` (regex
  `^(\d+)\.(\d+)\.(\d+)(.*)`);
* `main.go` — `fallbackPriority` (Go `sort.Search` binary search),
  `getAvailableVersions`, `checkTarget` (manifest resolution with fallback),
  and the per-target orchestration loop of `run`;
* `pkg/objdiff/objdiff.go` — `Object.String`, `IgnoreMapEntries`,
  `DiffObj`, `DiffList`.

External collaborators (the go-cmp structural diff library, the filesystem,
the cluster API) are modelled as explicit parameters or as a small
executable model, as noted at each definition.
-/

namespace Difftool

/-! ## Version (`pkg/util/version.go`)

Go's `Version` stores `V [3]uint32` and a free-form `Suffix`.  The three
components are modelled as `Nat`; `ParseVersion` enforces the `uint32`
bound (`strconv.ParseUint(_, 10, 32)`), so stored components are always
`< 2^32` and no modular arithmetic arises. -/

structure Version where
  major : Nat
  minor : Nat
  patch : Nat
  suffix : String
deriving DecidableEq, Repr

/-- `(*Version).Less`: strict lexicographic order on the numeric triple;
the suffix never participates.  Direct transcription of
`v.V[0] < r.V[0] || (v.V[0] == r.V[0] && v.V[1] < r.V[1]) || ...`. -/
def Version.less (v r : Version) : Bool :=
  (v.major < r.major) ||
    (v.major == r.major && v.minor < r.minor) ||
      (v.major == r.major && v.minor == r.minor && v.patch < r.patch)

/-- `(*Version).String`: `fmt.Sprintf("%d.%d.%d%s", ...)`. -/
def Version.render (v : Version) : String :=
  toString v.major ++ "." ++ toString v.minor ++ "." ++ toString v.patch ++ v.suffix

/-- The numeric triple of a version (the data `Less` is defined over). -/
def Version.triple (v : Version) : Nat × Nat × Nat :=
  (v.major, v.minor, v.patch)

/-! ### `ParseVersion`

`ParseVersion` trims whitespace (`strings.TrimSpace`), matches the anchored
regex `^(\d+)\.(\d+)\.(\d+)(.*)` and parses the three digit groups with
`strconv.ParseUint(_, 10, 32)` (which can only fail by exceeding the
unsigned 32-bit range, the groups being nonempty digit strings).

Modelling notes, faithful to Go regexp (RE2) semantics:
* `\d` is ASCII `[0-9]`;
* each `(\d+)` is a maximal digit run (the following literal `\.` cannot
  match a digit, so greedy matching is forced for the first two groups and
  maximal munch is the regex's behavior for the third);
* `.` does **not** match a newline, so the trailing group `(.*)` captures
  the characters after the triple only up to the first `'\n'`;
* `strings.TrimSpace` trims Unicode whitespace; the model trims the ASCII
  whitespace characters (the only ones any claim exercises). -/

def isSpaceGo (c : Char) : Bool :=
  c == ' ' || c == '\t' || c == '\n' || c == '\x0b' || c == '\x0c' || c == '\r'

/-- `strings.TrimSpace` on the character list of the input. -/
def trimGo (cs : List Char) : List Char :=
  ((cs.dropWhile isSpaceGo).reverse.dropWhile isSpaceGo).reverse

def isDigitGo (c : Char) : Bool :=
  '0' ≤ c && c ≤ '9'

/-- Numeric value of a digit string (`strconv.ParseUint` base 10, before
the 32-bit range check). -/
def digitsToNat (ds : List Char) : Nat :=
  ds.foldl (fun n c => n * 10 + (c.toNat - '0'.toNat)) 0

/-- The literal `\.` of the regex: consume a leading dot. -/
def expectDot : List Char → Option (List Char)
  | '.' :: rest => some rest
  | _ => none

/-- Match of the regex prefix `^(\d+)\.(\d+)\.(\d+)` against `cs`:
three maximal nonempty digit runs separated by literal dots, together with
the unmatched remainder. -/
def matchTriple (cs : List Char) : Option (List Char × List Char × List Char × List Char) :=
  let d1 := cs.takeWhile isDigitGo
  if d1.isEmpty then none else
  match expectDot (cs.dropWhile isDigitGo) with
  | none => none
  | some r2 =>
    let d2 := r2.takeWhile isDigitGo
    if d2.isEmpty then none else
    match expectDot (r2.dropWhile isDigitGo) with
    | none => none
    | some r4 =>
      let d3 := r4.takeWhile isDigitGo
      if d3.isEmpty then none else some (d1, d2, d3, r4.dropWhile isDigitGo)

/-- `util.ParseVersion`.  `none` models the Go `error` return (the error
message text is not modelled).  On a regex match, the fourth group `(.*)`
is the remainder up to the first newline, kept verbatim as the suffix;
each digit group must fit in 32 unsigned bits. -/
def parseVersion (s : String) : Option Version :=
  let cs := trimGo s.data
  match matchTriple cs with
  | none => none
  | some (d1, d2, d3, rest) =>
    let n1 := digitsToNat d1
    let n2 := digitsToNat d2
    let n3 := digitsToNat d3
    if n1 < 2 ^ 32 && n2 < 2 ^ 32 && n3 < 2 ^ 32 then
      some ⟨n1, n2, n3, String.mk (rest.takeWhile (fun c => c ≠ '\n'))⟩
    else
      none

/-! ## Manifest directory scanner and fallback resolver (`main.go`) -/

/-- One iteration bound of Go's `sort.Search` binary-search loop
(`i, j := 0, n; for i < j { h := (i+j)/2; if !f(h) { i = h+1 } else { j = h } }`).
The first argument is a fuel bound on the number of iterations; the
interval length `j - i` strictly shrinks each iteration, so any fuel
`≥ j - i` is exact (`sortSearch` passes `n`). -/
def searchLoop (f : Nat → Bool) : Nat → Nat → Nat → Nat
  | 0, i, _ => i
  | fuel + 1, i, j =>
    if i < j then
      let m := (i + j) / 2
      if f m then searchLoop f fuel i m else searchLoop f fuel (m + 1) j
    else i

/-- `sort.Search(n, f)`: the smallest index in `[0, n]` at which `f`
becomes true, assuming `f` is monotone (false then true). -/
def sortSearch (n : Nat) (f : Nat → Bool) : Nat :=
  searchLoop f n 0 n

/-- The zero `util.Version` (Go zero value of the struct). -/
def zeroVersion : Version := ⟨0, 0, 0, ""⟩

/-- `fallbackPriority(version, available)`:
`idx := sort.Search(len(available), func(i) bool { return !available[i].Less(version) })`,
then `available[idx:]` in ascending order followed by `available[:idx]`
in descending order. -/
def fallbackPriority (version : Version) (available : List Version) : List Version :=
  let idx := sortSearch available.length
    (fun i => !((available.getD i zeroVersion).less version))
  available.drop idx ++ (available.take idx).reverse

/-- Insertion step of the sort modelling `sort.Slice(versions, less)`. -/
def insertAsc (v : Version) : List Version → List Version
  | [] => [v]
  | w :: ws => if v.less w then v :: w :: ws else w :: insertAsc v ws

/-- `getAvailableVersions(dir)`: parse each directory-entry name, skip the
unparseable ones (the warning side effect is not modelled), and sort
ascending by `Less`.  Go's `sort.Slice` is an unstable sort; it is
modelled by an insertion sort, which agrees with it up to the order of
`Less`-equal elements.  The directory listing is the `names` parameter
(the filesystem is an external collaborator). -/
def getAvailableVersions (names : List String) : List Version :=
  (names.filterMap parseVersion).foldr insertAsc []

/-- Go's post-condition for a slice sorted ascending with `Less`:
no earlier element is greater than a later one. -/
def SortedGo (l : List Version) : Prop :=
  l.Pairwise (fun a b => b.less a = false)

/-! ## Structured values and the go-cmp model (`pkg/objdiff/objdiff.go`)

The payloads compared by `DiffObj` are `any` values decoded from
YAML-via-JSON: null, booleans, numbers, strings, arrays, string-keyed
maps.  (JSON numbers are modelled as `Int`; their arithmetic plays no
role.)  The structural comparison itself is the external go-cmp library
(out of scope of the repository); what is modelled of it is its documented
behavior used here: `cmp.Diff(x, y, opt)` returns the empty string iff the
values are equal after discarding every subtree whose traversal path the
`cmp.FilterPath(filter, cmp.Ignore())` option's filter accepts, the filter
being consulted at each compared node with the path from the root to that
node.  A nonempty report's text is opaque library output, modelled as a
placeholder; only emptiness of the report is specified.  (For slices the
library's report may use split indexes after an edit-script alignment;
index-aligned comparison is modelled, which agrees on equality.) -/

mutual

/-- A YAML/JSON-decoded `any` value: null, boolean, number, string, array
or string-keyed object.  Arrays and objects carry their own list
constructors (instead of nested `List Val`) so that every recursion over
values is structural. -/
inductive Val where
  | null : Val
  | bool (b : Bool) : Val
  | num (n : Int) : Val
  | str (s : String) : Val
  | arr (elems : ValList) : Val
  | map (entries : ValEntries) : Val

/-- The elements of a JSON array, in order. -/
inductive ValList where
  | nil : ValList
  | cons (head : Val) (tail : ValList) : ValList

/-- The entries of a JSON object, in order, keys unique after decoding. -/
inductive ValEntries where
  | nil : ValEntries
  | cons (key : String) (value : Val) (tail : ValEntries) : ValEntries

end

/-- Key lookup in a JSON object (Go map indexing). -/
def ValEntries.lookup (k : String) : ValEntries → Option Val
  | .nil => none
  | .cons k' v rest => if k' = k then some v else ValEntries.lookup k rest

/-- A traversal-path step that `IgnoreMapEntries`' filter collects: a
map key (`cmp.MapIndex`) or a sequence index (`cmp.SliceIndex`).  The
other go-cmp step kinds (type assertions, etc.) contribute nothing to the
collected key and are not modelled. -/
inductive PathStep where
  | key (k : String) : PathStep
  | idx (i : Nat) : PathStep
deriving DecidableEq, Repr

/-- The key sequence the filter of `IgnoreMapEntries` collects from a
path: map keys verbatim, slice indexes via `strconv.Itoa`. -/
def collectKeys (path : List PathStep) : List String :=
  path.map fun ps =>
    match ps with
    | .key k => k
    | .idx i => toString i

/-- The filter function inside `IgnoreMapEntries(ignoredKeys)`: dot-join
the collected keys and test membership (`slices.Contains`) in
`ignoredKeys`. -/
def ignoreFilter (ignoredKeys : List String) (path : List PathStep) : Bool :=
  ignoredKeys.contains (String.intercalate "." (collectKeys path))

/-- Surplus array elements (one side exhausted): each remaining element
is an inequality at its index unless the filter ignores that index's
path. -/
def surplusIgnored (ign : List String) (path : List PathStep) : Nat → ValList → Bool
  | _, .nil => true
  | i, .cons _ rest =>
    ignoreFilter ign (path ++ [.idx i]) && surplusIgnored ign path (i + 1) rest

/-- Keys present in `ys` must also be present in `xs`, except where the
filter ignores the key's path (no value recursion is needed: a matched
key's value is compared from the `xs` side). -/
def keysCovered (ign : List String) (path : List PathStep) (xs : ValEntries) : ValEntries → Bool
  | .nil => true
  | .cons k _ rest =>
    ((xs.lookup k).isSome || ignoreFilter ign (path ++ [.key k])) &&
      keysCovered ign path xs rest

mutual

/-- Equality of two values under go-cmp with the
`IgnoreMapEntries ignoredKeys` option, below traversal path `path`
(whose own filter check was performed by the caller: `cmpDiff` checks the
root path, and each recursive position checks its child path before
descending): maps compare over the union of their keys (a key missing on
one side is an inequality at the key's path unless ignored there); arrays
compare index-aligned, surplus elements being inequalities at their
indexes unless ignored there. -/
def cmpEqual (ign : List String) (path : List PathStep) : Val → Val → Bool
  | .null, .null => true
  | .bool a, .bool b => a == b
  | .num a, .num b => a == b
  | .str a, .str b => a == b
  | .arr xs, .arr ys => cmpEqualArr ign path 0 xs ys
  | .map xs, .map ys => cmpEqualMap ign path xs ys && keysCovered ign path xs ys
  | _, _ => false

/-- Index-aligned array comparison from index `i`: each pair compares at
path `path ++ [idx i]` unless the filter ignores that path. -/
def cmpEqualArr (ign : List String) (path : List PathStep) : Nat → ValList → ValList → Bool
  | i, .cons x xs, .cons y ys =>
    (ignoreFilter ign (path ++ [.idx i]) || cmpEqual ign (path ++ [.idx i]) x y) &&
      cmpEqualArr ign path (i + 1) xs ys
  | i, xs, .nil => surplusIgnored ign path i xs
  | i, .nil, ys => surplusIgnored ign path i ys

/-- Map comparison from the `xs` side: each entry's value compares at
path `path ++ [key k]` against `ys`'s entry unless the filter ignores
that path; a key absent from `ys` is an inequality there. -/
def cmpEqualMap (ign : List String) (path : List PathStep) : ValEntries → ValEntries → Bool
  | .nil, _ => true
  | .cons k v rest, ys =>
    (ignoreFilter ign (path ++ [.key k]) ||
      match ys.lookup k with
      | some b => cmpEqual ign (path ++ [.key k]) v b
      | none => false) &&
    cmpEqualMap ign path rest ys

end

/-- `cmp.Diff(x, y, IgnoreMapEntries(ign))`: the empty string iff the
values are equal after discarding every ignored subtree (the root's own
path is checked here); a nonempty report's text is opaque library output
(placeholder). -/
def cmpDiff (ign : List String) (x y : Val) : String :=
  if ignoreFilter ign [] then ""
  else if cmpEqual ign [] x y then "" else "(go-cmp report)"

/-! ## Objects and the diff engine (`pkg/objdiff/objdiff.go`) -/

/-- `objdiff.Object`: API version and kind (`TypeMeta`), namespace and
name (the `ObjectMeta` fields the code reads), and the `spec` and `data`
payloads.  The `Items` field only drives the list/single dispatch in
`Diff`; the item lists are passed to `DiffList` directly (as at its call
sites), so it is not a field here. -/
structure Obj where
  apiVersion : String
  kind : String
  nspace : String
  name : String
  spec : Val
  data : Val

/-- `(*Object).String`: `"<apiVersion> <kind> <name>"`, or
`"<apiVersion> <kind> <namespace>/<name>"` when the namespace is
nonempty.  This is the identity string objects are matched by. -/
def objString (o : Obj) : String :=
  if o.nspace = "" then o.apiVersion ++ " " ++ o.kind ++ " " ++ o.name
  else o.apiVersion ++ " " ++ o.kind ++ " " ++ o.nspace ++ "/" ++ o.name

/-- The zero `objdiff.Object` (Go zero value: empty strings, nil
payloads). -/
def zeroObj : Obj := ⟨"", "", "", "", .null, .null⟩

/-- `DiffObj(obj1, obj2, opts...)`: compare the `Data` payloads when
`obj1` is a ConfigMap, else the `Spec` payloads.  The variadic `opts` are
specialized to the one option the repository ever builds,
`IgnoreMapEntries(target.Ignore)`, carried as the ignore-path list. -/
def DiffObj (ign : List String) (o1 o2 : Obj) : String :=
  if o1.kind = "ConfigMap" then cmpDiff ign o1.data o2.data
  else cmpDiff ign o1.spec o2.spec

/-- Go map insert `m[k] = v`: overwrite an existing binding, else add
one.  (Association list with unique keys by construction.) -/
def mapInsert (m : List (String × Obj)) (k : String) (v : Obj) : List (String × Obj) :=
  if (m.lookup k).isSome then m.map fun e => if e.1 = k then (k, v) else e
  else m ++ [(k, v)]

/-- The identity map `m` of `DiffList`: `m[o.String()] = o` for each item
of the first argument, in order. -/
def buildMap (items : List Obj) : List (String × Obj) :=
  items.foldl (fun m o => mapInsert m (objString o) o) []

/-- `fmt.Sprintf("- %s is not found\n", o)`. -/
def notFoundMsg (o : Obj) : String := "- " ++ objString o ++ " is not found\n"

/-- `fmt.Sprintf("+ %s is found, but not in default\n", v)`. -/
def notInDefaultMsg (o : Obj) : String :=
  "+ " ++ objString o ++ " is found, but not in default\n"

/-- `fmt.Sprintf("%s\n%s", o2.String(), diff)`. -/
def changedMsg (o : Obj) (diff : String) : String := objString o ++ "\n" ++ diff

/-- The `for _, o2 := range obj2` loop of `DiffList`: returns the
presences and diffs it appends (in order) and the final set of identities
marked in `checked`.  An `o2` absent from `m` contributes a not-found
presence; a present one is marked checked and contributes a changed entry
when `DiffObj` reports a nonempty diff. -/
def diffListLoop (ign : List String) (m : List (String × Obj)) :
    List Obj → List String → List String × List String × List String
  | [], checked => ([], [], checked)
  | o2 :: rest, checked =>
    match m.lookup (objString o2) with
    | none =>
      let r := diffListLoop ign m rest checked
      (notFoundMsg o2 :: r.1, r.2.1, r.2.2)
    | some o1 =>
      let diff := DiffObj ign o1 o2
      let r := diffListLoop ign m rest (objString o2 :: checked)
      if diff = "" then r else (r.1, changedMsg o2 diff :: r.2.1, r.2.2)

/-- `DiffList(obj1, obj2, opts...)`.  `order` is the iteration order of
the final `for k, v := range m` loop: Go's map range order is
unspecified, so it is an explicit parameter, constrained in the theorems
to enumerate the keys of `m` exactly once.  Unchecked identities
contribute a not-in-default presence, appended after the loop's
presences. -/
def DiffList (ign : List String) (order : List String) (obj1 obj2 : List Obj) :
    List String × List String :=
  let m := buildMap obj1
  let r := diffListLoop ign m obj2 []
  (r.1 ++ order.filterMap fun k =>
    if r.2.2.contains k then none else (m.lookup k).map notInDefaultMsg,
   r.2.1)

/-! Per-item views of what each part of `DiffList` contributes, used to
state its characterization theorems (they are derived observations, not
separate source functions). -/

/-- What live item `o2` contributes to the presences during the live
loop: a not-found entry exactly when its identity is absent from `m`. -/
def extraEntry (m : List (String × Obj)) (o2 : Obj) : Option String :=
  if (m.lookup (objString o2)).isSome then none else some (notFoundMsg o2)

/-- What live item `o2` contributes to the diffs during the live loop: a
changed entry exactly when its identity maps to a desired item whose
`DiffObj` delta against it is nonempty. -/
def changedEntry (ign : List String) (m : List (String × Obj)) (o2 : Obj) : Option String :=
  match m.lookup (objString o2) with
  | some o1 => if DiffObj ign o1 o2 = "" then none else some (changedMsg o2 (DiffObj ign o1 o2))
  | none => none

/-- What map key `k` contributes to the presences in the final map loop:
a not-in-default entry for `m`'s item at `k` exactly when no live item
carried identity `k` (the `checked` flag stayed false). -/
def missingEntry (m : List (String × Obj)) (obj2 : List Obj) (k : String) : Option String :=
  if (obj2.any fun o2 => objString o2 == k) && (m.lookup k).isSome then none
  else (m.lookup k).map notInDefaultMsg

/-! ## Manifest resolution and orchestration (`main.go`: `checkTarget`, `run`)

The filesystem is an external collaborator: `loadYaml`'s outcome at a
path is a parameter `fs`, with the three outcomes the code distinguishes
(success, `os.IsNotExist`, any other error). -/

/-- Outcome of `loadYaml(path, &obj)` at one path. -/
inductive LoadResult where
  | ok (obj : Obj) : LoadResult
  | notExist : LoadResult
  | failed (msg : String) : LoadResult

/-- A per-target error returned by `checkTarget` (and by the differ it
calls): the `os.IsNotExist` load error, or any other error with its
message. -/
inductive CheckErr where
  | notExist : CheckErr
  | failed (msg : String) : CheckErr
deriving DecidableEq, Repr

/-- A target-list entry: API version and kind (`TypeMeta`), the
manifest's path relative to a version directory, and the ignore paths. -/
structure Target where
  apiVersion : String
  kind : String
  manifest : String
  ignore : List String

/-- `filepath.Join(dir, version.String(), relPath)` (path cleaning of
`filepath.Join` plays no role for the separator-free components used
here). -/
def manifestPath (manifestDir : String) (v : Version) (rel : String) : String :=
  manifestDir ++ "/" ++ v.render ++ "/" ++ rel

/-- `fmt.Fprintf(os.Stderr, "use %s instead of %s\n", v, opts.Version)`. -/
def noticeMsg (v optsVersion : Version) : String :=
  "use " ++ v.render ++ " instead of " ++ optsVersion.render ++ "\n"

/-- The `for _, v := range prioritized` fallback loop of `checkTarget`:
skip candidates whose manifest does not exist, fail on any other load
error, and on the first success emit the `use <v> instead of <opts>`
notice and stop.  When every candidate is exhausted the loop just ends:
`obj` keeps its zero value and control falls through to the diff, so the
result is `ok (zeroObj, none)` — not an error. -/
def fallbackLoop (fs : String → LoadResult) (manifestDir rel : String)
    (optsVersion : Version) : List Version → Except CheckErr (Obj × Option String)
  | [] => .ok (zeroObj, none)
  | v :: vs =>
    match fs (manifestPath manifestDir v rel) with
    | .ok obj => .ok (obj, some (noticeMsg v optsVersion))
    | .failed msg => .error (.failed msg)
    | .notExist => fallbackLoop fs manifestDir rel optsVersion vs

/-- The resolution phase of `checkTarget` (everything before the
`d.Diff` call): scan the manifest directory, try
`<dir>/<version>/<rel>`, and on `IsNotExist` either fail (fallback
disabled) or run the fallback loop over
`fallbackPriority(opts.Version, versions)`.  Note the code uses the
`version` parameter for the primary path but `opts.Version` for the
fallback priority and the notice; both are passed explicitly. -/
def checkTargetResolve (fs : String → LoadResult) (manifestDir : String)
    (fallback : Bool) (optsVersion version : Version) (dirNames : List String)
    (rel : String) : Except CheckErr (Obj × Option String) :=
  let versions := getAvailableVersions dirNames
  match fs (manifestPath manifestDir version rel) with
  | .ok obj => .ok (obj, none)
  | .failed msg => .error (.failed msg)
  | .notExist =>
    if fallback then
      fallbackLoop fs manifestDir rel optsVersion (fallbackPriority optsVersion versions)
    else
      .error .notExist

/-- `checkTarget`: resolution, then
`d.Diff(target.APIVersion, target.Kind, &obj, IgnoreMapEntries(target.Ignore))`.
The differ (resource-locator lookup through the REST mapper plus live
retrieval over the network plus the diff aggregation) is an external
collaborator here, passed as `differ`; any of its stage errors surfaces
as an `Except` error. -/
def checkTarget (fs : String → LoadResult)
    (differ : String → String → Obj → List String → Except CheckErr (List String × List String))
    (manifestDir : String) (fallback : Bool) (optsVersion version : Version)
    (dirNames : List String) (t : Target) : Except CheckErr (List String × List String) :=
  match checkTargetResolve fs manifestDir fallback optsVersion version dirNames t.manifest with
  | .error e => .error e
  | .ok (obj, _) => differ t.apiVersion t.kind obj t.ignore

/-- What `run`'s loop prints for one target after its header: a skip
warning, `No diff.`, or the presence/diff blocks. -/
inductive Report where
  | skipped (e : CheckErr) : Report
  | noDiff : Report
  | printed (presences diffs : List String) : Report
deriving DecidableEq, Repr

/-- The body of `run`'s per-target loop: a `checkTarget` error is logged
and turns into a skip (`continue`); otherwise empty collections print
`No diff.` and nonempty ones are printed. -/
def reportOf (check : Target → Except CheckErr (List String × List String))
    (t : Target) : Report :=
  match check t with
  | .error e => .skipped e
  | .ok (p, d) => if p.isEmpty && d.isEmpty then .noDiff else .printed p d

/-- `run`'s `for _, target := range targets` loop: one report per target,
in order; no loop iteration can abort the run. -/
def runLoop (check : Target → Except CheckErr (List String × List String)) :
    List Target → List Report
  | [] => []
  | t :: ts => reportOf check t :: runLoop check ts

/-- `run` once startup (flag parsing, target-list load, client creation)
has succeeded: the loop runs to completion and `run` returns `nil`.
Startup errors abort before this point and are outside this model. -/
def runAfterStartup (check : Target → Except CheckErr (List String × List String))
    (targets : List Target) : Except CheckErr (List Report) :=
  .ok (runLoop check targets)

/-! ## Spec-side predicate for version parsing

Modelled from the spec: "Parsing requires the text to start with
`<digits>.<digits>.<digits>`" — an existential decomposition into three
nonempty digit runs separated by literal dots, used to compare
`ParseVersion`'s regex against the spec's wording. -/

/-- A nonempty all-digit character run. -/
def IsDigitRun (ds : List Char) : Prop :=
  ds ≠ [] ∧ ∀ c ∈ ds, isDigitGo c = true

/-- The spec's "starts with `<digits>.<digits>.<digits>`". -/
def HasTriplePrefix (cs : List Char) : Prop :=
  ∃ d1 d2 d3 rest, IsDigitRun d1 ∧ IsDigitRun d2 ∧ IsDigitRun d3 ∧
    cs = d1 ++ '.' :: (d2 ++ '.' :: (d3 ++ rest))

/-! ## Concrete sample data for the examples, counterexamples and witnesses -/

/-- A one-key spec payload `{"x": n}`. -/
def specX (n : Int) : Val := .map (.cons "x" (.num n) .nil)

/-- A cluster-scoped sample object with payload `specX n`. -/
def sampleObj (name : String) (n : Int) : Obj :=
  ⟨"v1", "Kind", "", name, specX n, .null⟩

/-- A Deployment-like object whose spec payload is `{"replicas": n}`. -/
def sampleDep (n : Int) : Obj :=
  ⟨"apps/v1", "Deployment", "ns", "web", .map (.cons "replicas" (.num n) .nil), .null⟩

/-- A filesystem on which only `root/4.11.2/app.yaml` exists. -/
def fsOnly4112 : String → LoadResult := fun p =>
  if p = "root/4.11.2/app.yaml" then .ok (sampleObj "m" 7) else .notExist

/-- A filesystem on which no path exists. -/
def fsEmpty : String → LoadResult := fun _ => .notExist

/-! # Theorems

## Version ordering helpers -/

theorem less_true_iff (v w : Version) :
    v.less w = true ↔
      v.major < w.major ∨ (v.major = w.major ∧ v.minor < w.minor) ∨
        (v.major = w.major ∧ v.minor = w.minor ∧ v.patch < w.patch) := by
  simp only [Version.less, Bool.or_eq_true, Bool.and_eq_true, decide_eq_true_eq, beq_iff_eq]
  tauto

theorem less_false_iff (v w : Version) :
    v.less w = false ↔
      ¬(v.major < w.major ∨ (v.major = w.major ∧ v.minor < w.minor) ∨
        (v.major = w.major ∧ v.minor = w.minor ∧ v.patch < w.patch)) := by
  rw [← less_true_iff, Bool.eq_false_iff]

theorem triple_eq_iff (v w : Version) :
    v.triple = w.triple ↔ v.major = w.major ∧ v.minor = w.minor ∧ v.patch = w.patch := by
  simp [Version.triple, Prod.ext_iff]

/-! ## C7 — comparison is a total order on the numeric triple alone -/

/-- C7: `Less` is determined solely by the (major, minor, patch) triple
(suffixes never matter), it is transitive, asymmetric and total up to
triple equality, two versions compare equal (neither is less) exactly
when their triples coincide, and the parsed versions `1.2.3-rc1` and
`1.2.3-rc2` compare equal. -/
theorem C7_compare_total_order_triple_only :
    (∀ v w v2 w2 : Version, v.triple = v2.triple → w.triple = w2.triple →
        v.less w = v2.less w2) ∧
    (∀ u v w : Version, u.less v = true → v.less w = true → u.less w = true) ∧
    (∀ v w : Version, ¬(v.less w = true ∧ w.less v = true)) ∧
    (∀ v w : Version, v.less w = true ∨ w.less v = true ∨ v.triple = w.triple) ∧
    (∀ v w : Version, (v.less w = false ∧ w.less v = false) ↔ v.triple = w.triple) ∧
    parseVersion "1.2.3-rc1" = some ⟨1, 2, 3, "-rc1"⟩ ∧
    parseVersion "1.2.3-rc2" = some ⟨1, 2, 3, "-rc2"⟩ ∧
    Version.less ⟨1, 2, 3, "-rc1"⟩ ⟨1, 2, 3, "-rc2"⟩ = false ∧
    Version.less ⟨1, 2, 3, "-rc2"⟩ ⟨1, 2, 3, "-rc1"⟩ = false := by
  refine ⟨?_, ?_, ?_, ?_, ?_, by decide, by decide, by decide, by decide⟩
  · intro v w v2 w2 hv hw
    rw [triple_eq_iff] at hv hw
    obtain ⟨h1, h2, h3⟩ := hv
    obtain ⟨g1, g2, g3⟩ := hw
    simp only [Version.less, h1, h2, h3, g1, g2, g3]
  · intro u v w h1 h2
    rw [less_true_iff] at h1 h2 ⊢
    omega
  · rintro v w ⟨h1, h2⟩
    rw [less_true_iff] at h1 h2
    omega
  · intro v w
    by_cases h : v.less w = true
    · exact Or.inl h
    by_cases g : w.less v = true
    · exact Or.inr (Or.inl g)
    refine Or.inr (Or.inr ?_)
    replace h := (less_false_iff v w).mp (Bool.eq_false_iff.mpr h)
    replace g := (less_false_iff w v).mp (Bool.eq_false_iff.mpr g)
    rw [triple_eq_iff]
    omega
  · intro v w
    rw [less_false_iff, less_false_iff, triple_eq_iff]
    omega

/-- Witness for C7 at concrete versions: suffix changes do not change the
comparison, and transitivity applies at `1.1.1 < 2.1.1 < 3.1.1`. -/
theorem C7_compare_witness :
    Version.less ⟨1, 2, 3, "a"⟩ ⟨1, 2, 4, "b"⟩ = Version.less ⟨1, 2, 3, "c"⟩ ⟨1, 2, 4, "d"⟩ ∧
    Version.less ⟨1, 1, 1, ""⟩ ⟨3, 1, 1, ""⟩ = true :=
  ⟨C7_compare_total_order_triple_only.1 _ _ _ _ (by decide) (by decide),
   C7_compare_total_order_triple_only.2.1 ⟨1, 1, 1, ""⟩ ⟨2, 1, 1, ""⟩ ⟨3, 1, 1, ""⟩
     (by decide) (by decide)⟩

/-! ## C3 — fallback priority at a concrete input -/

/-- C3: for available `[4.10.0, 4.11.0, 4.12.0]` (sorted ascending) and
target `4.11.5`, `fallbackPriority` returns exactly
`[4.12.0, 4.11.0, 4.10.0]` — the versions not less than the target in
ascending order, then the versions less than the target in descending
order. -/
theorem C3_fallbackPriority_example :
    fallbackPriority ⟨4, 11, 5, ""⟩ [⟨4, 10, 0, ""⟩, ⟨4, 11, 0, ""⟩, ⟨4, 12, 0, ""⟩] =
      [⟨4, 12, 0, ""⟩, ⟨4, 11, 0, ""⟩, ⟨4, 10, 0, ""⟩] := by decide

/-! ## C10 — an empty-string ignore path suppresses the whole diff -/

/-- C10: whenever the configured ignore list contains the empty string,
the single-object diff is entirely suppressed: the root traversal path
collects no map-key or index steps, its dot-joined form is `""`, the
filter matches it, and `DiffObj` returns an empty delta for every pair of
objects (differing payloads included). -/
theorem C10_empty_ignore_suppresses_all (ign : List String) (o1 o2 : Obj)
    (h : "" ∈ ign) : DiffObj ign o1 o2 = "" := by
  have hf : ignoreFilter ign [] = true := by
    simp only [ignoreFilter, collectKeys, List.map_nil]
    rw [show String.intercalate "." [] = "" from rfl]
    exact List.elem_iff.mpr h
  unfold DiffObj cmpDiff
  split <;> simp [hf]

/-- Witness for C10: two objects whose payloads genuinely differ (their
unfiltered diff is nonempty), yet with ignore list `[""]` the diff is
empty. -/
theorem C10_empty_ignore_witness :
    DiffObj [] (sampleDep 1) (sampleDep 2) ≠ "" ∧
    DiffObj [""] (sampleDep 1) (sampleDep 2) = "" :=
  ⟨by decide, C10_empty_ignore_suppresses_all [""] (sampleDep 1) (sampleDep 2) (by decide)⟩

/-! ## C5 — the ignore filter matches dot-joined paths verbatim, relative
to the compared payload -/

/-- C5 counterexample: with ignore path `"spec.replicas"`, a delta
differing only in the `replicas` field of the spec payload is **not**
suppressed — `DiffObj` compares the spec payloads themselves, so the
delta's traversal path is `replicas` (the top-level `spec` field name is
not part of the path) and the comparison does not yield the equal
outcome. -/
theorem C5_spec_replicas_counterexample :
    DiffObj ["spec.replicas"] (sampleDep 1) (sampleDep 2) ≠ "" := by decide

/-- C5 (amended): the filter suppresses exactly the subtrees whose
structural-traversal path, dot-joined over its map-key and
sequence-index steps, is verbatim equal to a configured ignore path,
the path being relative to the compared payload (the spec/data
substructure, whose own field name contributes no step); accordingly a
delta differing only in the `replicas` field of the spec payload is
fully suppressed by the ignore path `"replicas"` (yielding the equal
outcome), while without ignore paths it is a real delta. -/
theorem C5_ignore_filter_verbatim_relative :
    (∀ (ign : List String) (path : List PathStep),
        ignoreFilter ign path = true ↔ String.intercalate "." (collectKeys path) ∈ ign) ∧
    DiffObj ["replicas"] (sampleDep 1) (sampleDep 2) = "" ∧
    DiffObj [] (sampleDep 1) (sampleDep 2) ≠ "" :=
  ⟨fun _ _ => List.elem_iff, by decide, by decide⟩

/-! ## C2 — manifest resolution with and without fallback -/

theorem fallbackLoop_all_notExist (fs : String → LoadResult) (md rel : String)
    (ov : Version) : ∀ vs : List Version,
    (∀ v ∈ vs, fs (manifestPath md v rel) = .notExist) →
    fallbackLoop fs md rel ov vs = .ok (zeroObj, none) := by
  intro vs
  induction vs with
  | nil => intro _; rfl
  | cons v rest ih =>
    intro h
    have hv := h v (List.mem_cons_self v rest)
    simp only [fallbackLoop, hv]
    exact ih fun w hw => h w (List.mem_cons_of_mem v hw)

theorem fallbackLoop_first_ok (fs : String → LoadResult) (md rel : String)
    (ov : Version) : ∀ (l1 : List Version) (v : Version) (l2 : List Version) (obj : Obj),
    (∀ w ∈ l1, fs (manifestPath md w rel) = .notExist) →
    fs (manifestPath md v rel) = .ok obj →
    fallbackLoop fs md rel ov (l1 ++ v :: l2) = .ok (obj, some (noticeMsg v ov)) := by
  intro l1
  induction l1 with
  | nil =>
    intro v l2 obj _ hv
    simp only [List.nil_append, fallbackLoop, hv]
  | cons w rest ih =>
    intro v l2 obj h hv
    have hw := h w (List.mem_cons_self w rest)
    simp only [List.cons_append, fallbackLoop, hw]
    exact ih v l2 obj (fun u hu => h u (List.mem_cons_of_mem w hu)) hv

/-- C2 counterexample: with fallback enabled and **no** candidate
manifest existing anywhere (the filesystem is empty), resolution does not
fail: the fallback loop exhausts its candidates, the `obj` variable keeps
its zero value, and `checkTarget` falls through to the diff with the zero
object — there is no `Exhausted` resolution failure, contradicting the
claim. -/
theorem C2_fallback_exhaustion_counterexample :
    checkTargetResolve fsEmpty "root" true ⟨4, 11, 0, ""⟩ ⟨4, 11, 0, ""⟩
        ["4.10.5", "4.11.2"] "app.yaml" = .ok (zeroObj, none) := by rfl

/-- C2 (amended): when the manifest does not exist under the requested
version — with fallback disabled, resolution fails with the not-found
outcome; with fallback enabled, the candidates of
`fallbackPriority(opts.Version, scan)` are tried in order and the first
existing one is returned with the `use <candidate> instead of <target>`
notice; exhausting every candidate, however, does **not** fail — it
yields the zero object with no notice, and the diff proceeds against it.
In particular, with available versions `4.10.5` and `4.11.2`, target
`4.11.0` and the file present only under `4.11.2`, fallback-enabled
resolution returns the object loaded from the `4.11.2` path with the
notice `use 4.11.2 instead of 4.11.0`, and fallback-disabled resolution
fails with the not-found outcome. -/
theorem C2_resolution_fallback (fs : String → LoadResult) (md rel : String)
    (ov vv : Version) (dirs : List String)
    (hprimary : fs (manifestPath md vv rel) = .notExist) :
    (checkTargetResolve fs md false ov vv dirs rel = .error .notExist) ∧
    ((∀ v ∈ fallbackPriority ov (getAvailableVersions dirs),
        fs (manifestPath md v rel) = .notExist) →
      checkTargetResolve fs md true ov vv dirs rel = .ok (zeroObj, none)) ∧
    (∀ (l1 : List Version) (v : Version) (l2 : List Version) (obj : Obj),
      fallbackPriority ov (getAvailableVersions dirs) = l1 ++ v :: l2 →
      (∀ w ∈ l1, fs (manifestPath md w rel) = .notExist) →
      fs (manifestPath md v rel) = .ok obj →
      checkTargetResolve fs md true ov vv dirs rel = .ok (obj, some (noticeMsg v ov))) ∧
    (checkTargetResolve fsOnly4112 "root" true ⟨4, 11, 0, ""⟩ ⟨4, 11, 0, ""⟩
        ["4.10.5", "4.11.2"] "app.yaml" =
      .ok (sampleObj "m" 7, some "use 4.11.2 instead of 4.11.0\n")) ∧
    (checkTargetResolve fsOnly4112 "root" false ⟨4, 11, 0, ""⟩ ⟨4, 11, 0, ""⟩
        ["4.10.5", "4.11.2"] "app.yaml" = .error .notExist) := by
  refine ⟨?_, ?_, ?_, by rfl, by rfl⟩
  · simp only [checkTargetResolve, hprimary, if_neg (Bool.false_ne_true)]
  · intro h
    simp only [checkTargetResolve, hprimary, if_pos rfl]
    exact fallbackLoop_all_notExist fs md rel ov _ h
  · intro l1 v l2 obj heq h1 hv
    simp only [checkTargetResolve, hprimary, if_pos rfl, heq]
    exact fallbackLoop_first_ok fs md rel ov l1 v l2 obj h1 hv

/-- Witness for C2 at the spec's concrete scenario: the primary path
`root/4.11.0/app.yaml` does not exist, and fallback-enabled resolution
returns the object loaded from the `4.11.2` path together with the
notice. -/
theorem C2_resolution_witness :
    checkTargetResolve fsOnly4112 "root" true ⟨4, 11, 0, ""⟩ ⟨4, 11, 0, ""⟩
        ["4.10.5", "4.11.2"] "app.yaml" =
      .ok (sampleObj "m" 7, some "use 4.11.2 instead of 4.11.0\n") :=
  (C2_resolution_fallback fsOnly4112 "root" "app.yaml" ⟨4, 11, 0, ""⟩ ⟨4, 11, 0, ""⟩
    ["4.10.5", "4.11.2"] (by rfl)).2.2.2.1

/-! ## C9 — per-target errors are downgraded to a skip, never fatal -/

/-- C9: once startup has succeeded, the run cannot fail: the orchestration
loop produces exactly one report per configured target, in order; a
target whose check errors gets a skip report (the warning) while every
other target is still processed; and an error at any `checkTarget` stage
(manifest resolution/load via `checkTargetResolve`, or the differ's
resource-locator lookup / live-state retrieval) surfaces as exactly such
a per-target error. -/
theorem C9_per_target_errors_nonfatal
    (check : Target → Except CheckErr (List String × List String))
    (targets : List Target) :
    runAfterStartup check targets = .ok (runLoop check targets) ∧
    (runLoop check targets).length = targets.length ∧
    (∀ i (h : i < targets.length),
        (runLoop check targets)[i]? = some (reportOf check targets[i])) ∧
    (∀ t e, check t = .error e → reportOf check t = .skipped e) ∧
    (∀ t ts, runLoop check (t :: ts) = reportOf check t :: runLoop check ts) ∧
    (∀ (fs : String → LoadResult)
        (differ : String → String → Obj → List String →
          Except CheckErr (List String × List String))
        (md : String) (fb : Bool) (ov vv : Version) (dn : List String)
        (t : Target) (e : CheckErr),
        checkTargetResolve fs md fb ov vv dn t.manifest = .error e →
        checkTarget fs differ md fb ov vv dn t = .error e) ∧
    (∀ (fs : String → LoadResult)
        (differ : String → String → Obj → List String →
          Except CheckErr (List String × List String))
        (md : String) (fb : Bool) (ov vv : Version) (dn : List String)
        (t : Target) (obj : Obj) (notice : Option String) (e : CheckErr),
        checkTargetResolve fs md fb ov vv dn t.manifest = .ok (obj, notice) →
        differ t.apiVersion t.kind obj t.ignore = .error e →
        checkTarget fs differ md fb ov vv dn t = .error e) := by
  refine ⟨rfl, ?_, ?_, ?_, fun t ts => rfl, ?_, ?_⟩
  · induction targets with
    | nil => rfl
    | cons t ts ih => simp only [runLoop, List.length_cons, ih]
  · intro i h
    induction targets generalizing i with
    | nil => exact absurd h (by simp)
    | cons t ts ih =>
      cases i with
      | zero => simp [runLoop]
      | succ j =>
        simp only [runLoop, List.getElem?_cons_succ, List.getElem_cons_succ]
        exact ih j (by simpa using h)
  · intro t e h
    simp only [reportOf, h]
  · intro fs differ md fb ov vv dn t e h
    simp only [checkTarget, h]
  · intro fs differ md fb ov vv dn t obj notice e h hd
    simp only [checkTarget, h, hd]

/-- Witness for C9: a check that fails on the target whose manifest is
`"bad"` yields a skip report for it, and a two-target run (failing
first target included) still produces two reports. -/
theorem C9_per_target_witness :
    reportOf (fun t => if t.manifest = "bad" then .error (.failed "boom") else .ok ([], []))
        ⟨"v1", "Kind", "bad", []⟩ = .skipped (.failed "boom") ∧
    (runLoop (fun t => if t.manifest = "bad" then .error (.failed "boom") else .ok ([], []))
        [⟨"v1", "Kind", "bad", []⟩, ⟨"v1", "Kind", "good", []⟩]).length = 2 :=
  ⟨(C9_per_target_errors_nonfatal _ []).2.2.2.1 ⟨"v1", "Kind", "bad", []⟩
      (.failed "boom") (by rfl),
   (C9_per_target_errors_nonfatal _
      [⟨"v1", "Kind", "bad", []⟩, ⟨"v1", "Kind", "good", []⟩]).2.1⟩

/-! ## DiffList helper lemmas -/

theorem lookup_cons (q a : String) (b : Obj) (rest : List (String × Obj)) :
    List.lookup q ((a, b) :: rest) = if q = a then some b else List.lookup q rest := by
  by_cases h : q = a
  · subst h; simp [List.lookup]
  · simp [List.lookup, beq_false_of_ne h, h]

theorem lookup_isSome_iff_mem_keys (q : String) :
    ∀ m : List (String × Obj), (m.lookup q).isSome = true ↔ q ∈ m.map Prod.fst := by
  intro m
  induction m with
  | nil => simp [List.lookup]
  | cons e rest ih =>
    obtain ⟨a, b⟩ := e
    by_cases h : q = a <;> simp [lookup_cons, h, ih]

theorem lookup_append (q : String) (l1 l2 : List (String × Obj)) :
    List.lookup q (l1 ++ l2) =
      match List.lookup q l1 with
      | some v => some v
      | none => List.lookup q l2 := by
  induction l1 with
  | nil => simp [List.lookup]
  | cons e rest ih =>
    obtain ⟨a, b⟩ := e
    by_cases hq : q = a <;> simp [lookup_cons, hq, ih]

theorem lookup_replaceKey (k : String) (v : Obj) (q : String) :
    ∀ m : List (String × Obj),
      (m.map fun e => if e.1 = k then (k, v) else e).lookup q =
        if q = k then (m.lookup k).map (fun _ => v) else m.lookup q := by
  intro m
  induction m with
  | nil => simp [List.lookup]
  | cons e rest ih =>
    obtain ⟨a, b⟩ := e
    by_cases hak : a = k
    · subst hak
      by_cases hq : q = a <;> simp [lookup_cons, hq, ih]
    · by_cases hq : q = a
      · subst hq
        simp [lookup_cons, hak, ih]
      · have hka : ¬k = a := fun h => hak h.symm
        simp [lookup_cons, hak, hq, hka, ih]

theorem mapInsert_lookup (m : List (String × Obj)) (k : String) (v : Obj) (q : String) :
    (mapInsert m k v).lookup q = if q = k then some v else m.lookup q := by
  unfold mapInsert
  split
  · next hs =>
    rw [lookup_replaceKey]
    by_cases hq : q = k
    · obtain ⟨w, hw⟩ := Option.isSome_iff_exists.mp hs
      simp [hq, hw]
    · simp [hq]
  · next hs =>
    have hnone : m.lookup k = none := Option.not_isSome_iff_eq_none.mp hs
    rw [lookup_append]
    by_cases hq : q = k
    · subst hq
      simp [hnone, lookup_cons]
    · cases hl : m.lookup q <;> simp [hl, lookup_cons, hq]

theorem mapInsert_keys_mem (m : List (String × Obj)) (k : String) (v : Obj) (q : String) :
    q ∈ (mapInsert m k v).map Prod.fst ↔ q ∈ m.map Prod.fst ∨ q = k := by
  unfold mapInsert
  split
  · next hs =>
    have hkeys : (m.map fun e => if e.1 = k then (k, v) else e).map Prod.fst =
        m.map Prod.fst := by
      rw [List.map_map]
      refine List.map_congr_left fun e _ => ?_
      by_cases h : e.1 = k <;> simp [h]
    rw [hkeys]
    constructor
    · exact Or.inl
    · rintro (h | rfl)
      · exact h
      · exact (lookup_isSome_iff_mem_keys q m).mp hs
  · simp [or_comm]

theorem buildMap_lookup_not_mem (q : String) :
    ∀ (l : List Obj) (m0 : List (String × Obj)), q ∉ l.map objString →
      (l.foldl (fun m o => mapInsert m (objString o) o) m0).lookup q = m0.lookup q := by
  intro l
  induction l with
  | nil => intro m0 _; rfl
  | cons o rest ih =>
    intro m0 h
    rw [List.map_cons, List.mem_cons, not_or] at h
    rw [List.foldl_cons, ih _ h.2, mapInsert_lookup]
    exact if_neg h.1

theorem buildMap_lookup_some (q : String) (v : Obj) :
    ∀ (l : List Obj) (m0 : List (String × Obj)),
      (l.foldl (fun m o => mapInsert m (objString o) o) m0).lookup q = some v →
      (v ∈ l ∧ objString v = q) ∨ m0.lookup q = some v := by
  intro l
  induction l with
  | nil => intro m0 h; exact Or.inr h
  | cons o rest ih =>
    intro m0 h
    rw [List.foldl_cons] at h
    rcases ih _ h with hrest | hm0
    · exact Or.inl ⟨List.mem_cons_of_mem o hrest.1, hrest.2⟩
    · rw [mapInsert_lookup] at hm0
      by_cases hq : q = objString o
      · rw [if_pos hq] at hm0
        injection hm0 with h
        subst h
        exact Or.inl ⟨List.mem_cons_self o rest, hq.symm⟩
      · rw [if_neg hq] at hm0
        exact Or.inr hm0

theorem buildMap_lookup_self :
    ∀ (l : List Obj), (l.map objString).Nodup →
      ∀ o ∈ l, ∀ m0 : List (String × Obj),
        (l.foldl (fun m o => mapInsert m (objString o) o) m0).lookup (objString o) = some o := by
  intro l
  induction l with
  | nil => intro _ o ho; exact absurd ho (List.not_mem_nil o)
  | cons o1 rest ih =>
    intro hnodup o ho m0
    rw [List.map_cons, List.nodup_cons] at hnodup
    rcases List.mem_cons.mp ho with rfl | horest
    · rw [List.foldl_cons, buildMap_lookup_not_mem _ _ _ hnodup.1, mapInsert_lookup,
        if_pos rfl]
    · exact ih hnodup.2 o horest _

theorem buildMap_keys_mem (q : String) :
    ∀ (l : List Obj) (m0 : List (String × Obj)),
      q ∈ (l.foldl (fun m o => mapInsert m (objString o) o) m0).map Prod.fst ↔
        q ∈ m0.map Prod.fst ∨ q ∈ l.map objString := by
  intro l
  induction l with
  | nil => simp
  | cons o rest ih =>
    intro m0
    rw [List.foldl_cons, ih, mapInsert_keys_mem]
    simp only [List.map_cons, List.mem_cons]
    tauto

theorem buildMap_keys_iff (q : String) (l : List Obj) :
    q ∈ (buildMap l).map Prod.fst ↔ q ∈ l.map objString := by
  unfold buildMap
  rw [buildMap_keys_mem]
  simp

theorem diffListLoop_spec (ign : List String) (m : List (String × Obj)) :
    ∀ (obj2 : List Obj) (c0 : List String),
      (diffListLoop ign m obj2 c0).1 = obj2.filterMap (extraEntry m) ∧
      (diffListLoop ign m obj2 c0).2.1 = obj2.filterMap (changedEntry ign m) ∧
      ∀ k, (diffListLoop ign m obj2 c0).2.2.contains k =
        (c0.contains k ||
          ((obj2.any fun o2 => objString o2 == k) && (m.lookup k).isSome)) := by
  intro obj2
  induction obj2 with
  | nil => intro c0; refine ⟨rfl, rfl, fun k => by simp [diffListLoop]⟩
  | cons o2 rest ih =>
    intro c0
    cases hm : m.lookup (objString o2) with
    | none =>
      obtain ⟨ih1, ih2, ih3⟩ := ih c0
      refine ⟨?_, ?_, ?_⟩
      · simp only [diffListLoop, hm, List.filterMap_cons, extraEntry,
          Option.isSome_none, Bool.false_eq_true, if_neg, ih1]
        simp [extraEntry, hm]
      · simp only [diffListLoop, hm, List.filterMap_cons]
        simp [changedEntry, hm, ih2]
      · intro k
        simp only [diffListLoop, hm, ih3]
        by_cases hk : objString o2 == k
        · have : (m.lookup k).isSome = false := by
            rw [show k = objString o2 from (eq_of_beq hk).symm, hm]
            rfl
          simp [List.any_cons, hk, this]
        · simp [List.any_cons, Bool.eq_false_iff.mpr hk]
    | some o1 =>
      obtain ⟨ih1, ih2, ih3⟩ := ih (objString o2 :: c0)
      have hsome : (m.lookup (objString o2)).isSome = true := by rw [hm]; rfl
      by_cases hd : DiffObj ign o1 o2 = ""
      · refine ⟨?_, ?_, ?_⟩
        · simp only [diffListLoop, hm, if_pos hd]
          simp [extraEntry, hsome, ih1]
        · simp only [diffListLoop, hm, if_pos hd]
          simp [changedEntry, hm, hd, ih2]
        · intro k
          simp only [diffListLoop, hm, if_pos hd, ih3]
          by_cases hk : objString o2 == k
          · have hkk : (m.lookup k).isSome = true := by
              rw [show k = objString o2 from (eq_of_beq hk).symm]; exact hsome
            simp only [List.any_cons, List.contains_cons, hk, hkk, Bool.true_or,
              Bool.true_and, Bool.or_true, Bool.and_true]
            simp only [List.contains, List.elem_cons]
            simp [hk, hkk]
            exact Or.inl (Or.inl (eq_of_beq hk).symm)
          · have hne : ¬k = objString o2 := fun h => by
              rw [h] at hk
              exact hk (beq_self_eq_true (objString o2))
            simp [List.any_cons, List.contains_cons, Bool.eq_false_iff.mpr hk, hne]
      · refine ⟨?_, ?_, ?_⟩
        · simp only [diffListLoop, hm, if_neg hd]
          simp [extraEntry, hsome, ih1]
        · simp only [diffListLoop, hm, if_neg hd]
          simp [changedEntry, hm, hd, ih2]
        · intro k
          simp only [diffListLoop, hm, if_neg hd, ih3]
          by_cases hk : objString o2 == k
          · have hkk : (m.lookup k).isSome = true := by
              rw [show k = objString o2 from (eq_of_beq hk).symm]; exact hsome
            simp only [List.any_cons, List.contains_cons, hk, hkk, Bool.true_or,
              Bool.true_and, Bool.or_true, Bool.and_true]
            simp only [List.contains, List.elem_cons]
            simp [hk, hkk]
            exact Or.inl (Or.inl (eq_of_beq hk).symm)
          · have hne : ¬k = objString o2 := fun h => by
              rw [h] at hk
              exact hk (beq_self_eq_true (objString o2))
            simp [List.any_cons, List.contains_cons, Bool.eq_false_iff.mpr hk, hne]

theorem diffList_characterization (ign order : List String) (obj1 obj2 : List Obj) :
    DiffList ign order obj1 obj2 =
      (obj2.filterMap (extraEntry (buildMap obj1)) ++
        order.filterMap (missingEntry (buildMap obj1) obj2),
       obj2.filterMap (changedEntry ign (buildMap obj1))) := by
  obtain ⟨h1, h2, h3⟩ := diffListLoop_spec ign (buildMap obj1) obj2 []
  simp only [DiffList]
  rw [Prod.mk.injEq]
  refine ⟨?_, h2⟩
  rw [h1]
  congr 1
  refine List.filterMap_congr fun k _ => ?_
  rw [h3 k]
  simp only [List.contains, List.elem_nil, Bool.false_or, missingEntry]

/-- C6 counterexample: with desired items `[b, a]` and live items
`[a, b]` (both payload pairs differing), the changed collection comes out
in the **live** order `a, b`, not in the desired order `b, a` — so the
changed collection does not preserve the order of the desired items. -/
theorem C6_changed_order_counterexample :
    (DiffList [] ["v1 Kind b", "v1 Kind a"] [sampleObj "b" 2, sampleObj "a" 1]
        [sampleObj "a" 5, sampleObj "b" 6]).2 =
      ["v1 Kind a\n(go-cmp report)", "v1 Kind b\n(go-cmp report)"] ∧
    (DiffList [] ["v1 Kind b", "v1 Kind a"] [sampleObj "b" 2, sampleObj "a" 1]
        [sampleObj "a" 5, sampleObj "b" 6]).2 ≠
      ["v1 Kind b\n(go-cmp report)", "v1 Kind a\n(go-cmp report)"] :=
  ⟨by decide, by decide⟩

/-- C6 (amended): the changed collection and the not-found presences
preserve the order of the **live** items (`DiffList`'s second argument),
while the not-in-default presences (desired-but-absent) follow the
unspecified iteration order of the identity map, appended after the
not-found presences; only their set membership is guaranteed. -/
theorem C6_ordering_live_and_map_order (ign order : List String) (obj1 obj2 : List Obj) :
    (DiffList ign order obj1 obj2).2 = obj2.filterMap (changedEntry ign (buildMap obj1)) ∧
    (DiffList ign order obj1 obj2).1 =
      obj2.filterMap (extraEntry (buildMap obj1)) ++
        order.filterMap (missingEntry (buildMap obj1) obj2) := by
  rw [diffList_characterization]
  exact ⟨rfl, rfl⟩

/-- C1: `DiffList` classifies by identity — provided the desired items
have pairwise distinct identities (the caller contract of 4.4) and
`order` enumerates the identity map's keys once (Go's map range):
every desired item whose identity is absent from the live items is
reported (its not-in-default presence entry), every live item whose
identity matches no desired item is reported (its not-found presence
entry), the presences contain nothing else, and each identity present on
both sides is compared for change (a changed entry appears exactly for
matched pairs with a nonempty filtered delta).  In particular
desired = [a, b], live = [b, c] (with b's payloads equal) yields exactly
the not-found entry for c, the not-in-default entry for a, and an empty
changed collection. -/
theorem C1_diffList_classifies (ign order : List String) (obj1 obj2 : List Obj)
    (hnodup : (obj1.map objString).Nodup)
    (horder : order.Perm ((buildMap obj1).map Prod.fst)) :
    (∀ o ∈ obj1, objString o ∉ obj2.map objString →
        notInDefaultMsg o ∈ (DiffList ign order obj1 obj2).1) ∧
    (∀ o2 ∈ obj2, objString o2 ∉ obj1.map objString →
        notFoundMsg o2 ∈ (DiffList ign order obj1 obj2).1) ∧
    (∀ s ∈ (DiffList ign order obj1 obj2).1,
        (∃ o ∈ obj1, objString o ∉ obj2.map objString ∧ s = notInDefaultMsg o) ∨
        (∃ o2 ∈ obj2, objString o2 ∉ obj1.map objString ∧ s = notFoundMsg o2)) ∧
    (∀ o2 ∈ obj2, ∀ o1, (buildMap obj1).lookup (objString o2) = some o1 →
        DiffObj ign o1 o2 ≠ "" →
        changedMsg o2 (DiffObj ign o1 o2) ∈ (DiffList ign order obj1 obj2).2) ∧
    (∀ s ∈ (DiffList ign order obj1 obj2).2,
        ∃ o2 ∈ obj2, ∃ o1, (buildMap obj1).lookup (objString o2) = some o1 ∧
          o1 ∈ obj1 ∧ objString o1 = objString o2 ∧ DiffObj ign o1 o2 ≠ "" ∧
          s = changedMsg o2 (DiffObj ign o1 o2)) ∧
    DiffList [] ["v1 Kind a", "v1 Kind b"] [sampleObj "a" 1, sampleObj "b" 2]
        [sampleObj "b" 2, sampleObj "c" 3] =
      (["- v1 Kind c is not found\n", "+ v1 Kind a is found, but not in default\n"], []) := by
  rw [diffList_characterization]
  refine ⟨?_, ?_, ?_, ?_, ?_, by decide⟩
  · intro o ho habs
    have hlook : (buildMap obj1).lookup (objString o) = some o :=
      buildMap_lookup_self obj1 hnodup o ho []
    have hkeys : objString o ∈ (buildMap obj1).map Prod.fst :=
      (lookup_isSome_iff_mem_keys _ _).mp (by rw [hlook]; rfl)
    have horder2 : objString o ∈ order := horder.mem_iff.mpr hkeys
    have hany : (obj2.any fun o2 => objString o2 == objString o) = false := by
      rw [Bool.eq_false_iff]
      intro hc
      obtain ⟨o2, ho2, he⟩ := List.any_eq_true.mp hc
      exact habs (List.mem_map.mpr ⟨o2, ho2, eq_of_beq he⟩)
    refine List.mem_append_right _ (List.mem_filterMap.mpr ⟨objString o, horder2, ?_⟩)
    simp [missingEntry, hany, hlook]
  · intro o2 ho2 habs
    have hlook : (buildMap obj1).lookup (objString o2) = none := by
      have := buildMap_lookup_not_mem (objString o2) obj1 [] habs
      simpa [List.lookup] using this
    refine List.mem_append_left _ (List.mem_filterMap.mpr ⟨o2, ho2, ?_⟩)
    simp [extraEntry, hlook]
  · intro s hs
    rcases List.mem_append.mp hs with hs | hs
    · obtain ⟨o2, ho2, he⟩ := List.mem_filterMap.mp hs
      unfold extraEntry at he
      by_cases hl : ((buildMap obj1).lookup (objString o2)).isSome = true
      · rw [if_pos hl] at he
        exact absurd he (by simp)
      · rw [if_neg hl] at he
        injection he with he
        refine Or.inr ⟨o2, ho2, ?_, he.symm⟩
        intro hmem
        obtain ⟨o, ho, heq⟩ := List.mem_map.mp hmem
        refine hl ((lookup_isSome_iff_mem_keys _ _).mpr ?_)
        exact (buildMap_keys_iff _ _).mpr (List.mem_map.mpr ⟨o, ho, heq⟩)
    · obtain ⟨k, hk, he⟩ := List.mem_filterMap.mp hs
      unfold missingEntry at he
      by_cases hc : ((obj2.any fun o2 => objString o2 == k) &&
          ((buildMap obj1).lookup k).isSome) = true
      · rw [if_pos hc] at he
        exact absurd he (by simp)
      · rw [if_neg hc] at he
        cases hl : (buildMap obj1).lookup k with
        | none => rw [hl] at he; exact absurd he (by simp)
        | some v =>
          rw [hl] at he
          injection he with he
          rcases buildMap_lookup_some k v obj1 [] hl with ⟨hv, hvk⟩ | habs2
          · refine Or.inl ⟨v, hv, ?_, he.symm⟩
            intro hmem
            obtain ⟨o2, ho2, heq⟩ := List.mem_map.mp hmem
            refine hc ?_
            rw [Bool.and_eq_true]
            refine ⟨List.any_eq_true.mpr ⟨o2, ho2, ?_⟩, by rw [hl]; rfl⟩
            rw [hvk] at heq
            exact beq_iff_eq.mpr heq
          · exact absurd habs2 (by simp [List.lookup])
  · intro o2 ho2 o1 hlook hd
    refine List.mem_filterMap.mpr ⟨o2, ho2, ?_⟩
    simp [changedEntry, hlook, hd]
  · intro s hs
    obtain ⟨o2, ho2, he⟩ := List.mem_filterMap.mp hs
    cases hl : (buildMap obj1).lookup (objString o2) with
    | none => simp [changedEntry, hl] at he
    | some o1 =>
      simp only [changedEntry, hl] at he
      by_cases hd : DiffObj ign o1 o2 = ""
      · rw [if_pos hd] at he
        exact absurd he (by simp)
      · rw [if_neg hd] at he
        injection he with he
        rcases buildMap_lookup_some _ _ obj1 [] hl with ⟨h1, h2⟩ | habs2
        · exact ⟨o2, ho2, o1, hl, h1, h2, hd, he.symm⟩
        · exact absurd habs2 (by simp [List.lookup])

/-- Witness for C1 at the concrete example: the desired item `a` (absent
from live) is reported, and the live item `c` (absent from desired) is
reported. -/
theorem C1_diffList_witness :
    notInDefaultMsg (sampleObj "a" 1) ∈
      (DiffList [] ["v1 Kind a", "v1 Kind b"] [sampleObj "a" 1, sampleObj "b" 2]
        [sampleObj "b" 2, sampleObj "c" 3]).1 ∧
    notFoundMsg (sampleObj "c" 3) ∈
      (DiffList [] ["v1 Kind a", "v1 Kind b"] [sampleObj "a" 1, sampleObj "b" 2]
        [sampleObj "b" 2, sampleObj "c" 3]).1 :=
  ⟨(C1_diffList_classifies [] ["v1 Kind a", "v1 Kind b"] [sampleObj "a" 1, sampleObj "b" 2]
      [sampleObj "b" 2, sampleObj "c" 3] (by decide) (by decide)).1
    (sampleObj "a" 1) (List.mem_cons_self _ _) (by decide),
   (C1_diffList_classifies [] ["v1 Kind a", "v1 Kind b"] [sampleObj "a" 1, sampleObj "b" 2]
      [sampleObj "b" 2, sampleObj "c" 3] (by decide) (by decide)).2.1
    (sampleObj "c" 3) (by simp) (by decide)⟩

/-! ## C4 helpers — Go `sort.Search` binary search -/

theorem searchLoop_basic (f : Nat → Bool) :
    ∀ (fuel i j : Nat), i ≤ j → j - i ≤ fuel →
      i ≤ searchLoop f fuel i j ∧ searchLoop f fuel i j ≤ j ∧
      (searchLoop f fuel i j < j → f (searchLoop f fuel i j) = true) ∧
      (i < searchLoop f fuel i j → f (searchLoop f fuel i j - 1) = false) := by
  intro fuel
  induction fuel with
  | zero =>
    intro i j hij hf
    have : i = j := by omega
    subst this
    have hz : searchLoop f 0 i i = i := rfl
    rw [hz]
    exact ⟨Nat.le_refl i, Nat.le_refl i, fun h => absurd h (by omega),
      fun h => absurd h (by omega)⟩
  | succ fuel ih =>
    intro i j hij hf
    by_cases h : i < j
    · have hm1 : i ≤ (i + j) / 2 := by omega
      have hm2 : (i + j) / 2 < j := by omega
      cases hfm : f ((i + j) / 2) with
      | true =>
        have hrec : searchLoop f (fuel + 1) i j = searchLoop f fuel i ((i + j) / 2) := by
          simp [searchLoop, h, hfm]
        obtain ⟨b1, b2, b3, b4⟩ := ih i ((i + j) / 2) hm1 (by omega)
        rw [hrec]
        refine ⟨b1, by omega, ?_, b4⟩
        intro _
        by_cases hlt : searchLoop f fuel i ((i + j) / 2) < (i + j) / 2
        · exact b3 hlt
        · have : searchLoop f fuel i ((i + j) / 2) = (i + j) / 2 := by omega
          rw [this]
          exact hfm
      | false =>
        have hrec : searchLoop f (fuel + 1) i j = searchLoop f fuel ((i + j) / 2 + 1) j := by
          simp [searchLoop, h, hfm]
        obtain ⟨b1, b2, b3, b4⟩ := ih ((i + j) / 2 + 1) j (by omega) (by omega)
        rw [hrec]
        refine ⟨by omega, b2, b3, ?_⟩
        intro _
        by_cases hgt : (i + j) / 2 + 1 < searchLoop f fuel ((i + j) / 2 + 1) j
        · exact b4 hgt
        · have : searchLoop f fuel ((i + j) / 2 + 1) j = (i + j) / 2 + 1 := by omega
          rw [this]
          simpa using hfm
    · have : searchLoop f (fuel + 1) i j = i := by simp [searchLoop, h]
      rw [this]
      exact ⟨Nat.le_refl i, hij, fun hc => absurd hc (by omega),
        fun hc => absurd hc (by omega)⟩

theorem sortSearch_le (n : Nat) (f : Nat → Bool) : sortSearch n f ≤ n :=
  (searchLoop_basic f n 0 n (Nat.zero_le n) (by omega)).2.1

theorem sortSearch_lt_false (n : Nat) (f : Nat → Bool)
    (hmono : ∀ a b, a ≤ b → b < n → f a = true → f b = true) :
    ∀ k < sortSearch n f, f k = false := by
  intro k hk
  unfold sortSearch at hk
  obtain ⟨b1, b2, b3, b4⟩ := searchLoop_basic f n 0 n (Nat.zero_le n) (by omega)
  have hpred : f (searchLoop f n 0 n - 1) = false := b4 (by omega)
  by_contra hc
  have hktrue : f k = true := by
    cases hfk : f k
    · exact absurd hfk hc
    · rfl
  have : f (searchLoop f n 0 n - 1) = true :=
    hmono k (searchLoop f n 0 n - 1) (by omega) (by omega) hktrue
  rw [this] at hpred
  exact absurd hpred (by simp)

theorem sortSearch_ge_true (n : Nat) (f : Nat → Bool)
    (hmono : ∀ a b, a ≤ b → b < n → f a = true → f b = true) :
    ∀ k, sortSearch n f ≤ k → k < n → f k = true := by
  intro k h1 h2
  unfold sortSearch at h1
  obtain ⟨b1, b2, b3, b4⟩ := searchLoop_basic f n 0 n (Nat.zero_le n) (by omega)
  exact hmono (searchLoop f n 0 n) k h1 h2 (b3 (by omega))

/-- C4: for every target version and every available list sorted
ascending by the version comparison (the caller contract),
`fallbackPriority` returns a permutation of the available list (no
element duplicated or dropped), and whenever some available element
compares equal to the target (equal numeric triple), the head of the
result is such an element of the list — the target itself under the
comparison. -/
theorem C4_priority_permutation_head (t : Version) (l : List Version) (hsorted : SortedGo l) :
    (fallbackPriority t l).Perm l ∧
    (∀ v ∈ l, v.triple = t.triple →
      ∃ w, (fallbackPriority t l).head? = some w ∧ w ∈ l ∧ w.triple = t.triple) := by
  have hunfold : fallbackPriority t l =
      l.drop (sortSearch l.length fun i => !((l.getD i zeroVersion).less t)) ++
        (l.take (sortSearch l.length fun i => !((l.getD i zeroVersion).less t))).reverse := rfl
  have hmono : ∀ a b, a ≤ b → b < l.length →
      (fun i => !((l.getD i zeroVersion).less t)) a = true →
      (fun i => !((l.getD i zeroVersion).less t)) b = true := by
    intro a b hab hb hfa
    simp only [Bool.not_eq_true'] at hfa ⊢
    rw [List.getD_eq_getElem _ _ (by omega)] at hfa
    rw [List.getD_eq_getElem _ _ hb]
    by_cases hab2 : a = b
    · subst hab2; exact hfa
    have hpair : (l[b].less l[a]) = false :=
      List.pairwise_iff_getElem.mp hsorted a b (by omega) hb (by omega)
    rw [less_false_iff] at hfa hpair ⊢
    omega
  constructor
  · rw [hunfold]
    have h2 := List.Perm.append_left
      (l.drop (sortSearch l.length fun i => !((l.getD i zeroVersion).less t)))
      (List.reverse_perm (l.take (sortSearch l.length fun i => !((l.getD i zeroVersion).less t))))
    have h3 : (l.drop (sortSearch l.length fun i => !((l.getD i zeroVersion).less t)) ++
        l.take (sortSearch l.length fun i => !((l.getD i zeroVersion).less t))).Perm
        (l.take (sortSearch l.length fun i => !((l.getD i zeroVersion).less t)) ++
         l.drop (sortSearch l.length fun i => !((l.getD i zeroVersion).less t))) :=
      List.perm_append_comm
    have h5 : (l.take (sortSearch l.length fun i => !((l.getD i zeroVersion).less t)) ++
        l.drop (sortSearch l.length fun i => !((l.getD i zeroVersion).less t))).Perm l := by
      rw [List.take_append_drop]
    exact h2.trans (h3.trans h5)
  · intro v hv hvt
    obtain ⟨iv, hivlt, hivget⟩ := List.mem_iff_getElem.mp hv
    have hfi : (!((l.getD iv zeroVersion).less t)) = true := by
      simp only [Bool.not_eq_true']
      rw [List.getD_eq_getElem _ _ hivlt, hivget, less_false_iff]
      rw [triple_eq_iff] at hvt
      omega
    have hidxle : sortSearch l.length (fun i => !((l.getD i zeroVersion).less t)) ≤ iv := by
      by_contra hcon
      push_neg at hcon
      have hfalse := sortSearch_lt_false l.length _ hmono iv hcon
      rw [hfalse] at hfi
      exact absurd hfi (by simp)
    have hidxlt : sortSearch l.length (fun i => !((l.getD i zeroVersion).less t)) < l.length :=
      Nat.lt_of_le_of_lt hidxle hivlt
    have hfidx := sortSearch_ge_true l.length _ hmono
      (sortSearch l.length fun i => !((l.getD i zeroVersion).less t)) (Nat.le_refl _) hidxlt
    rw [Bool.not_eq_true'] at hfidx
    rw [List.getD_eq_getElem _ _ hidxlt] at hfidx
    have h2 : (t.less l[sortSearch l.length fun i => !((l.getD i zeroVersion).less t)]) = false := by
      by_contra hcon
      have hcon2 : (t.less l[sortSearch l.length fun i => !((l.getD i zeroVersion).less t)]) = true := by
        cases hx : t.less l[sortSearch l.length fun i => !((l.getD i zeroVersion).less t)]
        · exact absurd hx hcon
        · rfl
      have hple : (l[iv].less l[sortSearch l.length fun i => !((l.getD i zeroVersion).less t)]) = false := by
        by_cases heq : sortSearch l.length (fun i => !((l.getD i zeroVersion).less t)) = iv
        · simp only [heq]
          rw [less_false_iff]
          omega
        · exact List.pairwise_iff_getElem.mp hsorted _ _ hidxlt hivlt (by omega)
      rw [hivget] at hple
      rw [less_true_iff] at hcon2
      rw [less_false_iff] at hple
      rw [triple_eq_iff] at hvt
      omega
    have h3 : l[sortSearch l.length fun i => !((l.getD i zeroVersion).less t)].triple = t.triple := by
      rw [triple_eq_iff]
      rw [less_false_iff] at hfidx h2
      omega
    refine ⟨l[sortSearch l.length fun i => !((l.getD i zeroVersion).less t)], ?_,
      List.getElem_mem hidxlt, h3⟩
    rw [hunfold, List.drop_eq_getElem_cons hidxlt, List.cons_append]
    rfl

/-- Witness for C4: available `[4.10.0, 4.11.0, 4.12.0]` (sorted), target
`4.11.0` which occurs in the list: the result is a permutation and its
head compares equal to the target. -/
theorem C4_priority_witness :
    (fallbackPriority ⟨4, 11, 0, ""⟩
        [⟨4, 10, 0, ""⟩, ⟨4, 11, 0, ""⟩, ⟨4, 12, 0, ""⟩]).Perm
      [⟨4, 10, 0, ""⟩, ⟨4, 11, 0, ""⟩, ⟨4, 12, 0, ""⟩] ∧
    ∃ w, (fallbackPriority ⟨4, 11, 0, ""⟩
        [⟨4, 10, 0, ""⟩, ⟨4, 11, 0, ""⟩, ⟨4, 12, 0, ""⟩]).head? = some w ∧
      w ∈ [⟨4, 10, 0, ""⟩, ⟨4, 11, 0, ""⟩, ⟨4, 12, 0, ""⟩] ∧
      w.triple = (⟨4, 11, 0, ""⟩ : Version).triple :=
  ⟨(C4_priority_permutation_head ⟨4, 11, 0, ""⟩
      [⟨4, 10, 0, ""⟩, ⟨4, 11, 0, ""⟩, ⟨4, 12, 0, ""⟩] (by unfold SortedGo; decide)).1,
   (C4_priority_permutation_head ⟨4, 11, 0, ""⟩
      [⟨4, 10, 0, ""⟩, ⟨4, 11, 0, ""⟩, ⟨4, 12, 0, ""⟩] (by unfold SortedGo; decide)).2
     ⟨4, 11, 0, ""⟩ (by decide) (by decide)⟩

/-! ## C8 helpers and theorems — `ParseVersion` success/failure -/

theorem expectDot_eq_some (l r : List Char) : expectDot l = some r ↔ l = '.' :: r := by
  unfold expectDot
  split
  · next rest => simp
  · next hno =>
    constructor
    · intro hc; cases hc
    · intro hc
      exact absurd hc.symm (by subst hc; exact fun h => (hno r rfl).elim)

theorem takeWhile_run (p : Char → Bool) :
    ∀ (xs : List Char) (y : Char) (ys : List Char),
      (∀ x ∈ xs, p x = true) → p y = false →
      (xs ++ y :: ys).takeWhile p = xs ∧ (xs ++ y :: ys).dropWhile p = y :: ys := by
  intro xs
  induction xs with
  | nil =>
    intro y ys _ hy
    simp [List.takeWhile_cons, List.dropWhile_cons, hy]
  | cons a rest ih =>
    intro y ys hall hy
    have ha : p a = true := hall a (List.mem_cons_self a rest)
    obtain ⟨h1, h2⟩ := ih y ys (fun x hx => hall x (List.mem_cons_of_mem a hx)) hy
    simp [List.takeWhile_cons, List.dropWhile_cons, ha, h1, h2]

theorem hasTriple_of_matchTriple_some (cs : List Char)
    (d1 d2 d3 rest : List Char)
    (h : matchTriple cs = some (d1, d2, d3, rest)) : HasTriplePrefix cs := by
  unfold matchTriple at h
  by_cases h1 : (cs.takeWhile isDigitGo).isEmpty
  · simp [h1] at h
  · simp only [h1, if_false, Bool.false_eq_true] at h
    cases hd1 : expectDot (cs.dropWhile isDigitGo) with
    | none => rw [hd1] at h; cases h
    | some r2 =>
      rw [hd1] at h
      by_cases h2 : (r2.takeWhile isDigitGo).isEmpty
      · simp [h2] at h
      · simp only [h2, if_false, Bool.false_eq_true] at h
        cases hd2 : expectDot (r2.dropWhile isDigitGo) with
        | none => rw [hd2] at h; cases h
        | some r4 =>
          rw [hd2] at h
          by_cases h3 : (r4.takeWhile isDigitGo).isEmpty
          · simp [h3] at h
          · have hcs := List.takeWhile_append_dropWhile isDigitGo cs
            have hr2 := List.takeWhile_append_dropWhile isDigitGo r2
            have hr4 := List.takeWhile_append_dropWhile isDigitGo r4
            rw [(expectDot_eq_some _ _).mp hd1] at hcs
            rw [(expectDot_eq_some _ _).mp hd2] at hr2
            have hdigA : ∀ c ∈ cs.takeWhile isDigitGo, isDigitGo c = true :=
              fun c hc => List.mem_takeWhile_imp hc
            have hdigB : ∀ c ∈ r2.takeWhile isDigitGo, isDigitGo c = true :=
              fun c hc => List.mem_takeWhile_imp hc
            have hdigC : ∀ c ∈ r4.takeWhile isDigitGo, isDigitGo c = true :=
              fun c hc => List.mem_takeWhile_imp hc
            obtain ⟨A, hA⟩ : ∃ A, cs.takeWhile isDigitGo = A := ⟨_, rfl⟩
            obtain ⟨B, hB⟩ : ∃ B, r2.takeWhile isDigitGo = B := ⟨_, rfl⟩
            obtain ⟨C, hC⟩ : ∃ C, r4.takeWhile isDigitGo = C := ⟨_, rfl⟩
            obtain ⟨R, hR⟩ : ∃ R, r4.dropWhile isDigitGo = R := ⟨_, rfl⟩
            rw [hA] at hcs hdigA h1
            rw [hB] at hr2 hdigB h2
            rw [hC] at hr4 hdigC h3
            rw [hR] at hr4
            rw [← hr4] at hr2
            rw [← hr2] at hcs
            refine ⟨A, B, C, R, ⟨?_, hdigA⟩, ⟨?_, hdigB⟩, ⟨?_, hdigC⟩, hcs.symm⟩
            · intro hc; exact h1 (by simp [hc])
            · intro hc; exact h2 (by simp [hc])
            · intro hc; exact h3 (by simp [hc])

theorem matchTriple_of_hasTriple (cs : List Char) (h : HasTriplePrefix cs) :
    ∃ out, matchTriple cs = some out := by
  obtain ⟨d1, d2, d3, rest, ⟨h1ne, h1dig⟩, ⟨h2ne, h2dig⟩, ⟨h3ne, h3dig⟩, heq⟩ := h
  have hdot : isDigitGo '.' = false := rfl
  obtain ⟨ht1, hd1⟩ := takeWhile_run isDigitGo d1 '.' (d2 ++ '.' :: (d3 ++ rest)) h1dig hdot
  obtain ⟨ht2, hd2⟩ := takeWhile_run isDigitGo d2 '.' (d3 ++ rest) h2dig hdot
  have h3cons : ∃ c cs3, d3 = c :: cs3 := by
    cases d3 with
    | nil => exact absurd rfl h3ne
    | cons c cs3 => exact ⟨c, cs3, rfl⟩
  obtain ⟨c, cs3, rfl⟩ := h3cons
  have hc : isDigitGo c = true := h3dig c (List.mem_cons_self c cs3)
  subst heq
  have hne1 : d1.isEmpty = false := by
    cases d1 with
    | nil => exact absurd rfl h1ne
    | cons a l => rfl
  have hne2 : d2.isEmpty = false := by
    cases d2 with
    | nil => exact absurd rfl h2ne
    | cons a l => rfl
  have hexp1 : expectDot ('.' :: (d2 ++ '.' :: (c :: cs3 ++ rest))) =
      some (d2 ++ '.' :: (c :: cs3 ++ rest)) := rfl
  have hexp2 : expectDot ('.' :: (c :: cs3 ++ rest)) = some (c :: cs3 ++ rest) := rfl
  have htc : (c :: cs3 ++ rest).takeWhile isDigitGo =
      c :: (cs3 ++ rest).takeWhile isDigitGo := by
    simp [List.takeWhile_cons, hc]
  refine ⟨(d1, d2, (c :: cs3 ++ rest).takeWhile isDigitGo,
    (c :: cs3 ++ rest).dropWhile isDigitGo), ?_⟩
  simp only [matchTriple, ht1, hd1, hne1, hexp1, ht2, hd2, hne2, hexp2,
    Bool.false_eq_true, if_false, htc, List.isEmpty_cons]

/-- C8 counterexample: on the input `1.2.3-a\nb`, parsing succeeds and
the suffix is `-a` — the regex's `(.*)` stops at the newline — whereas
the claim's "all trailing characters captured verbatim" would require
the suffix `-a\nb`. -/
theorem C8_newline_suffix_counterexample :
    parseVersion "1.2.3-a\nb" = some ⟨1, 2, 3, "-a"⟩ ∧
    ("-a" : String) ≠ "-a\nb" :=
  ⟨by decide, by decide⟩

/-- C8 (amended): version parsing fails exactly when the
whitespace-trimmed text does not start with a
`<digits>.<digits>.<digits>` prefix or one of the three (maximal-munch)
numerals exceeds the unsigned 32-bit range; on success the three
numerals become the (major, minor, patch) triple, and the suffix
captures the trailing characters after the triple only up to (not
including) the first newline — Go regexp's `.` does not match `\n`, so
anything from the first newline on is discarded rather than captured. -/
theorem C8_parse_fail_iff (s : String) :
    (parseVersion s = none ↔
      ¬HasTriplePrefix (trimGo s.data) ∨
      ∃ d1 d2 d3 rest, matchTriple (trimGo s.data) = some (d1, d2, d3, rest) ∧
        ¬(digitsToNat d1 < 2 ^ 32 ∧ digitsToNat d2 < 2 ^ 32 ∧ digitsToNat d3 < 2 ^ 32)) ∧
    (∀ v, parseVersion s = some v →
      ∃ d1 d2 d3 rest, matchTriple (trimGo s.data) = some (d1, d2, d3, rest) ∧
        v.major = digitsToNat d1 ∧ v.minor = digitsToNat d2 ∧ v.patch = digitsToNat d3 ∧
        v.suffix = String.mk (rest.takeWhile fun c => c ≠ '\n')) := by
  cases hm : matchTriple (trimGo s.data) with
  | none =>
    have hp : parseVersion s = none := by simp [parseVersion, hm]
    refine ⟨?_, ?_⟩
    · rw [hp]
      constructor
      · intro _
        left
        intro hhas
        obtain ⟨out, hout⟩ := matchTriple_of_hasTriple _ hhas
        rw [hm] at hout
        cases hout
      · intro _; rfl
    · intro v hv
      rw [hp] at hv
      cases hv
  | some out =>
    obtain ⟨d1, d2, d3, rest⟩ := out
    by_cases hb : digitsToNat d1 < 2 ^ 32 ∧ digitsToNat d2 < 2 ^ 32 ∧ digitsToNat d3 < 2 ^ 32
    · have hp : parseVersion s = some ⟨digitsToNat d1, digitsToNat d2, digitsToNat d3,
          String.mk (rest.takeWhile fun c => c ≠ '\n')⟩ := by
        simp [parseVersion, hm]
        omega
      refine ⟨?_, ?_⟩
      · rw [hp]
        constructor
        · intro hc; cases hc
        · rintro (hnot | ⟨e1, e2, e3, er, hme, hover⟩)
          · exact absurd (hasTriple_of_matchTriple_some _ _ _ _ _ hm) hnot
          · injection hme with hme
            simp only [Prod.mk.injEq] at hme
            obtain ⟨rfl, rfl, rfl, rfl⟩ := hme
            exact absurd hb hover
      · intro v hv
        rw [hp] at hv
        injection hv with hv
        obtain rfl := hv
        exact ⟨d1, d2, d3, rest, rfl, rfl, rfl, rfl, rfl⟩
    · have hp : parseVersion s = none := by
        simp only [parseVersion, hm]
        rw [if_neg]
        intro hc
        rw [Bool.and_eq_true, Bool.and_eq_true] at hc
        exact hb ⟨by exact_mod_cast of_decide_eq_true hc.1.1,
          by exact_mod_cast of_decide_eq_true hc.1.2,
          by exact_mod_cast of_decide_eq_true hc.2⟩
      refine ⟨?_, ?_⟩
      · rw [hp]
        constructor
        · intro _
          exact Or.inr ⟨d1, d2, d3, rest, rfl, hb⟩
        · intro _; rfl
      · intro v hv
        rw [hp] at hv
        cases hv

/-- Witness for C8 at the concrete input `1.2.3-a\nb`: parsing succeeds
with triple (1, 2, 3) and suffix `-a`. -/
theorem C8_parse_witness :
    ∃ d1 d2 d3 rest, matchTriple (trimGo "1.2.3-a\nb".data) = some (d1, d2, d3, rest) ∧
      (1 : Nat) = digitsToNat d1 ∧ (2 : Nat) = digitsToNat d2 ∧ (3 : Nat) = digitsToNat d3 ∧
      ("-a" : String) = String.mk (rest.takeWhile fun c => c ≠ '\n') :=
  (C8_parse_fail_iff "1.2.3-a\nb").2 ⟨1, 2, 3, "-a"⟩ (by decide)

end Difftool
